import Mathlib

/-!
A verification development for the quiz core of a word-study application:
the quiz session engine (`QuizEngine`, from QuizEngine.cpp) and the
progress snapshot record (`QuizProgress`, from QuizProgress.cpp/.h).

The embedding is shallow: Qt strings become `String`, `QStringList`
becomes `List String`, `std::set<QString>` and `QMap<QString, int>` become
ordered (assoc-)lists maintained by ordered insertion, C++ `int` becomes
`Int` (counters that only count upward become `Nat`), and the XML DOM
becomes an inductive element tree.  The external `WordEngine` collaborator
is an abstract record of query functions.
-/

/-! ### Decimal rendering and parsing of integers

Models `QString::number(int)` and `QString::toInt(bool* ok)` as used by
`QuizProgress::asDomElement` / `QuizProgress::fromDomElement`. -/

def digitChar (n : Nat) : Char :=
  match n with
  | 0 => '0' | 1 => '1' | 2 => '2' | 3 => '3' | 4 => '4'
  | 5 => '5' | 6 => '6' | 7 => '7' | 8 => '8' | _ => '9'

def digitVal? (c : Char) : Option Nat :=
  if 48 ≤ c.toNat ∧ c.toNat ≤ 57 then some (c.toNat - 48) else none

/-- Decimal digits of `n`, most significant first.  The fuel argument is an
upper bound on recursion depth; `natDigits` supplies enough. -/

def natDigitsAux : Nat → Nat → List Char
  | 0, _ => []
  | fuel + 1, n =>
    if n < 10 then [digitChar n]
    else natDigitsAux fuel (n / 10) ++ [digitChar (n % 10)]

def natDigits (n : Nat) : List Char := natDigitsAux (n + 1) n

def parseDigitsAux (acc : Nat) : List Char → Option Nat
  | [] => some acc
  | c :: cs =>
    match digitVal? c with
    | some d => parseDigitsAux (acc * 10 + d) cs
    | none => none

def parseNat? : List Char → Option Nat
  | [] => none
  | cs => parseDigitsAux 0 cs

def parseInt? : List Char → Option Int
  | [] => none
  | c :: cs =>
    if c = '-' then (parseNat? cs).map (fun (m : Nat) => -(m : Int))
    else (parseNat? (c :: cs)).map (fun (m : Nat) => (m : Int))

/-- `QString::number` on a (signed) integer. -/

def intToStr (n : Int) : String :=
  if n < 0 then String.mk ('-' :: natDigits n.natAbs) else String.mk (natDigits n.toNat)

/-- `QString::toInt`: `some` iff the whole string parses as a decimal integer. -/

def strToInt? (s : String) : Option Int := parseInt? s.data

/-! ### Lexicographic string order

Models the strict order `QString::operator<` / `std::set<QString>` /
`QMap<QString, _>` use for their sorted storage, as an executable
comparison on the character lists. -/

def charListLt : List Char → List Char → Bool
  | [], [] => false
  | [], _ :: _ => true
  | _ :: _, [] => false
  | a :: as, b :: bs => if a < b then true else if b < a then false else charListLt as bs

def strLt (a b : String) : Bool := charListLt a.data b.data

/-! ### DOM documents

A shallow model of the `QDomElement` trees `QuizProgress` serializes to:
an element has a tag, a list of attributes and a list of child elements. -/

inductive DomElem where
  | mk (tag : String) (attrs : List (String × String)) (children : List DomElem)

def DomElem.tag : DomElem → String
  | .mk t _ _ => t

def DomElem.attrs : DomElem → List (String × String)
  | .mk _ a _ => a

def DomElem.children : DomElem → List DomElem
  | .mk _ _ c => c

/-- `hasAttribute`/`attribute`: first binding of `name` in the attribute list. -/

def attrGet (name : String) : List (String × String) → Option String
  | [] => none
  | (k, v) :: rest => if k = name then some v else attrGet name rest

/-! ### QuizProgress (QuizProgress.h / QuizProgress.cpp)

`QMap<QString, int>` is modelled as an association list kept strictly
sorted by key, the map's iteration order; `mapInsert` is `operator[]`
assignment (insert-or-overwrite). -/

def mapContains (w : String) : List (String × Int) → Bool
  | [] => false
  | (k, _) :: rest => if k = w then true else mapContains w rest

def mapGet (w : String) : List (String × Int) → Int
  | [] => 0
  | (k, v) :: rest => if k = w then v else mapGet w rest

def mapInsert (w : String) (c : Int) : List (String × Int) → List (String × Int)
  | [] => [(w, c)]
  | (k, v) :: rest =>
    if strLt w k then (w, c) :: (k, v) :: rest
    else if w = k then (w, c) :: rest
    else (k, v) :: mapInsert w c rest

def sumCounts : List (String × Int) → Int
  | [] => 0
  | (_, v) :: rest => v + sumCounts rest

structure QuizProgress where
  question : Int
  correct : Int
  incorrect : Int
  missed : Int
  incorrectWords : List (String × Int)
  missedWords : List (String × Int)
deriving DecidableEq

namespace QuizProgress

/-- The default constructor: `question (0), correct (0), incorrect (0), missed (0)`. -/

def fresh : QuizProgress := ⟨0, 0, 0, 0, [], []⟩

def setQuestion (p : QuizProgress) (q : Int) : QuizProgress := { p with question := q }

def setCorrect (p : QuizProgress) (c : Int) : QuizProgress := { p with correct := c }

/-- `addIncorrect(const QString& word)`. -/

def addIncorrect (p : QuizProgress) (word : String) : QuizProgress :=
  let p :=
    if mapContains word p.incorrectWords then
      { p with incorrectWords :=
          mapInsert word (mapGet word p.incorrectWords + 1) p.incorrectWords }
    else
      { p with incorrectWords := mapInsert word 1 p.incorrectWords }
  { p with incorrect := p.incorrect + 1 }

/-- `addIncorrect(const QString& word, int count)`: overwrite the word's
count, add `count` to the running total. -/

def addIncorrectCount (p : QuizProgress) (word : String) (count : Int) : QuizProgress :=
  { p with incorrectWords := mapInsert word count p.incorrectWords,
           incorrect := p.incorrect + count }

/-- `addMissed(const QString& word)`. -/

def addMissed (p : QuizProgress) (word : String) : QuizProgress :=
  let p :=
    if mapContains word p.missedWords then
      { p with missedWords :=
          mapInsert word (mapGet word p.missedWords + 1) p.missedWords }
    else
      { p with missedWords := mapInsert word 1 p.missedWords }
  { p with missed := p.missed + 1 }

/-- `addMissed(const QString& word, int count)`. -/

def addMissedCount (p : QuizProgress) (word : String) (count : Int) : QuizProgress :=
  { p with missedWords := mapInsert word count p.missedWords,
           missed := p.missed + count }

/-- One `<response word="..." count="..."/>` element of `asDomElement`. -/

def encodeEntry (wc : String × Int) : DomElem :=
  .mk "response" [("word", wc.1), ("count", intToStr wc.2)] []

/-- `asDomElement`: the serialized form.  Empty response collections are
omitted entirely. -/

def asDomElement (p : QuizProgress) : DomElem :=
  .mk "progress"
    [("question", intToStr p.question), ("correct", intToStr p.correct)]
    ((if p.incorrectWords.isEmpty then []
      else [DomElem.mk "incorrect-responses" [] (p.incorrectWords.map encodeEntry)]) ++
     (if p.missedWords.isEmpty then []
      else [DomElem.mk "missed-responses" [] (p.missedWords.map encodeEntry)]))

/-- The inner loop of `fromDomElement` over the `<response>` children of one
collection element; `elemMissed` tells which map is addressed. -/

def parseResponses (elemMissed : Bool) (tmp : QuizProgress) :
    List DomElem → Option QuizProgress
  | [] => some tmp
  | r :: rest =>
    match attrGet "word" r.attrs, attrGet "count" r.attrs with
    | some word, some countStr =>
      match strToInt? countStr with
      | some count =>
        parseResponses elemMissed
          (if elemMissed then addMissedCount tmp word count
           else addIncorrectCount tmp word count) rest
      | none => none
    | _, _ => none

/-- The outer loop of `fromDomElement` over the children of `<progress>`:
a child tagged `missed-responses` feeds the missed map (`elemMissed` true),
one tagged `incorrect-responses` feeds the incorrect map, any other tag
fails the parse. -/

def parseChildren (tmp : QuizProgress) : List DomElem → Option QuizProgress
  | [] => some tmp
  | c :: rest =>
    if c.tag = "missed-responses" then
      match parseResponses true tmp c.children with
      | some tmp' => parseChildren tmp' rest
      | none => none
    else if c.tag = "incorrect-responses" then
      match parseResponses false tmp c.children with
      | some tmp' => parseChildren tmp' rest
      | none => none
    else none

/-- The optional `question` attribute: absent is fine (default 0), present
but non-integer fails. -/

def parseQuestionAttr (element : DomElem) (tmp : QuizProgress) : Option QuizProgress :=
  match attrGet "question" element.attrs with
  | none => some tmp
  | some s =>
    match strToInt? s with
    | none => none
    | some q => some (setQuestion tmp q)

/-- The optional `correct` attribute. -/

def parseCorrectAttr (element : DomElem) (tmp : QuizProgress) : Option QuizProgress :=
  match attrGet "correct" element.attrs with
  | none => some tmp
  | some s =>
    match strToInt? s with
    | none => none
    | some c => some (setCorrect tmp c)

/-- The validating parse inside `fromDomElement`, building the scratch
`tmpProgress`; `none` is any of the source's `return false` paths. -/

def parseProgress (element : DomElem) : Option QuizProgress :=
  if element.tag = "progress" then
    match parseQuestionAttr element fresh with
    | none => none
    | some tmp =>
      match parseCorrectAttr element tmp with
      | none => none
      | some tmp => parseChildren tmp element.children
  else none

/-- `fromDomElement`: on success the object is wholly replaced by the
scratch progress (`*this = tmpProgress`), on failure it is untouched. -/

def fromDomElement (p : QuizProgress) (element : DomElem) : QuizProgress × Bool :=
  match parseProgress element with
  | some tmp => (tmp, true)
  | none => (p, false)

end QuizProgress

/-! ### Sorted-map lemmas -/

/-- The strict key-sortedness `QMap` maintains. -/

def sortedMap (m : List (String × Int)) : Prop :=
  List.Pairwise (fun a b : String × Int => strLt a.1 b.1 = true) m

namespace QuizProgress

/-! ### The QuizProgress counter/map invariant -/

/-- The intended invariant, strengthened with the sortedness `QMap`
guarantees: each running total is the sum of its map's values. -/

def WF (p : QuizProgress) : Prop :=
  p.incorrect = sumCounts p.incorrectWords ∧ p.missed = sumCounts p.missedWords ∧
  sortedMap p.incorrectWords ∧ sortedMap p.missedWords

/-- The `word` attributes of a run of `<response>` elements. -/

def wordsOf (rs : List DomElem) : List String :=
  rs.filterMap (fun r => attrGet "word" r.attrs)

/-- All response words a document routes into the incorrect map. -/

def incWordsOf : List DomElem → List String
  | [] => []
  | c :: cs =>
    (if c.tag = "missed-responses" then [] else wordsOf c.children) ++ incWordsOf cs

/-- All response words a document routes into the missed map. -/

def misWordsOf : List DomElem → List String
  | [] => []
  | c :: cs =>
    (if c.tag = "missed-responses" then wordsOf c.children else []) ++ misWordsOf cs

/-- No word repeats within the responses feeding one map. -/

def dupFree (e : DomElem) : Prop :=
  (incWordsOf e.children).Nodup ∧ (misWordsOf e.children).Nodup

/-- States reachable from a fresh `QuizProgress` by the public mutators,
where every counted add — called directly or performed on the scratch
object during `fromDomElement` — writes a word not already in its map. -/

inductive GoodReach : QuizProgress → Prop where
  | start : GoodReach fresh
  | addInc (p : QuizProgress) (w : String) :
      GoodReach p → GoodReach (addIncorrect p w)
  | addIncCount (p : QuizProgress) (w : String) (c : Int) :
      GoodReach p → mapContains w p.incorrectWords = false →
      GoodReach (addIncorrectCount p w c)
  | addMis (p : QuizProgress) (w : String) :
      GoodReach p → GoodReach (addMissed p w)
  | addMisCount (p : QuizProgress) (w : String) (c : Int) :
      GoodReach p → mapContains w p.missedWords = false →
      GoodReach (addMissedCount p w c)
  | deserialize (p : QuizProgress) (e : DomElem) :
      GoodReach p → dupFree e → GoodReach (fromDomElement p e).1

end QuizProgress

/-! ### QuizEngine (QuizEngine.cpp) -/

inductive MatchType where
  | Pattern
  | Anagram
  | Subanagram
deriving DecidableEq

inductive ResponseStatus where
  | Correct
  | Incorrect
  | Duplicate
deriving DecidableEq

/-- The external `WordEngine` collaborator, abstracted to its interface. -/

structure WordEngine where
  matchPattern : String → List String
  matchAnagram : String → List String
  matchSubanagram : String → List String
  alphagrams : List String → List String

/-- `std::set<QString>::insert`: ordered insertion without duplication; the
list is the set's iteration order. -/

def setInsert (w : String) : List String → List String
  | [] => [w]
  | x :: xs =>
    if strLt w x then w :: x :: xs
    else if w = x then x :: xs
    else x :: setInsert w xs

structure QuizEngine where
  quizQuestions : List String
  quizType : MatchType
  questionIndex : Nat
  quizTotal : Nat
  quizCorrect : Nat
  quizIncorrect : Nat
  correctResponses : List String
  correctUserResponses : List String
  incorrectUserResponses : List String
deriving DecidableEq

namespace QuizEngine

/-- `getQuestion`: the prompt at the cursor, or nothing (`QString::null`)
out of range. -/

def getQuestion (s : QuizEngine) : Option String :=
  s.quizQuestions.get? s.questionIndex

/-- `clearQuestion`: clear all answers and user responses. -/

def clearQuestion (s : QuizEngine) : QuizEngine :=
  { s with correctResponses := [], correctUserResponses := [],
           incorrectUserResponses := [] }

/-- `prepareQuestion`: clear the per-question state, look up the answers for
the current question under the session's `quizType`, and add the answer-set
size to the running total. -/

def prepareQuestion (we : WordEngine) (s : QuizEngine) : QuizEngine :=
  let s := clearQuestion s
  let question := (getQuestion s).getD ""
  let answers :=
    match s.quizType with
    | .Pattern => we.matchPattern question
    | .Anagram => we.matchAnagram question
    | .Subanagram => we.matchSubanagram question
  let cr := answers.foldl (fun acc a => setInsert a acc) s.correctResponses
  { s with correctResponses := cr, quizTotal := s.quizTotal + cr.length }

/-- One pass of the source's in-place swap shuffle; `rand i` is the value of
the `i`-th `std::rand()` call. -/

def swapAt (l : List String) (i j : Nat) : List String :=
  let vi := l.getD i ""
  let vj := l.getD j ""
  (l.set j vi).set i vj

def shuffle (rand : Nat → Nat) (l : List String) : List String :=
  let num := l.length
  (List.range num).foldl (fun acc i =>
    let rnum := rand i % num
    if rnum = i then acc else swapAt acc i rnum) l

/-- `newQuiz`: build the question list (alphagram grouping of the query
result when `alphagrams`, else just the query text), forcing the quiz type
from `Pattern` to `Anagram` in alphagram mode, optionally shuffle, reset the
cursor and counters, and prepare question 0. -/

def newQuiz (we : WordEngine) (rand : Nat → Nat) (input : String) (type : MatchType)
    (alphagrams randomOrder : Bool) : QuizEngine :=
  let questionsAndType :=
    if alphagrams then
      match type with
      | .Pattern => (we.alphagrams (we.matchPattern input), MatchType.Anagram)
      | .Anagram => (we.alphagrams (we.matchAnagram input), type)
      | .Subanagram => (we.alphagrams (we.matchSubanagram input), type)
    else ([input], type)
  let questions :=
    if randomOrder then shuffle rand questionsAndType.1 else questionsAndType.1
  prepareQuestion we
    { quizQuestions := questions, quizType := questionsAndType.2, questionIndex := 0,
      quizTotal := 0, quizCorrect := 0, quizIncorrect := 0,
      correctResponses := [], correctUserResponses := [], incorrectUserResponses := [] }

/-- `respond`: classify a user response against the current question. -/

def respond (s : QuizEngine) (response : String) : QuizEngine × ResponseStatus :=
  if response ∉ s.correctResponses then
    ({ s with incorrectUserResponses := s.incorrectUserResponses ++ [response],
              quizIncorrect := s.quizIncorrect + 1 }, .Incorrect)
  else if response ∈ s.correctUserResponses then
    (s, .Duplicate)
  else
    ({ s with correctUserResponses := setInsert response s.correctUserResponses,
              quizCorrect := s.quizCorrect + 1 }, .Correct)

/-- `onLastQuestion`: `questionIndex == quizQuestions.size() - 1` in `int`
arithmetic. -/

def onLastQuestion (s : QuizEngine) : Bool :=
  (s.questionIndex : Int) == (s.quizQuestions.length : Int) - 1

/-- `nextQuestion`.  The advancing path of the source reaches the end of the
function without a `return` statement, so the flag it hands back on that
path has no defined value: it is modelled as `none`. -/

def nextQuestion (we : WordEngine) (s : QuizEngine) : QuizEngine × Option Bool :=
  if onLastQuestion s then (s, some false)
  else (prepareQuestion we { s with questionIndex := s.questionIndex + 1 }, none)

/-- `getMissed`: walk the answer set in its order and keep what the user has
not supplied. -/

def getMissed (s : QuizEngine) : List String :=
  s.correctResponses.filter (fun w => decide (w ∉ s.correctUserResponses))

/-- The session-level operations a caller may perform between two `newQuiz`
calls. -/

inductive QuizOp where
  | respond (r : String)
  | next

def applyOp (we : WordEngine) (s : QuizEngine) : QuizOp → QuizEngine
  | .respond r => (respond s r).1
  | .next => (nextQuestion we s).1

def runOps (we : WordEngine) : QuizEngine → List QuizOp → QuizEngine
  | s, [] => s
  | s, op :: ops => runOps we (applyOp we s op) ops

/-- `userCorrect ⊆ correctAnswers`: the per-question containment invariant. -/

def Inv (s : QuizEngine) : Prop :=
  ∀ w ∈ s.correctUserResponses, w ∈ s.correctResponses

end QuizEngine


/-! ### Concrete example data used by witnesses and counterexamples -/

/-- A whole-session run: `newQuiz` followed by any sequence of `respond` and
`nextQuestion` calls. -/
def sessionAfter (we : WordEngine) (rand : Nat → Nat) (input : String) (t : MatchType)
    (a ro : Bool) (ops : List QuizEngine.QuizOp) : QuizEngine :=
  QuizEngine.runOps we (QuizEngine.newQuiz we rand input t a ro) ops

def stubWordEngine : WordEngine :=
  { matchPattern := fun _ => [],
    matchAnagram := fun q => if q = "act" then ["act", "cat"] else [],
    matchSubanagram := fun _ => [],
    alphagrams := fun l => l }

def exTwoQuestions : QuizEngine :=
  ⟨["q1", "q2"], .Anagram, 0, 0, 0, 0, [], [], []⟩

def exAnswers : QuizEngine :=
  ⟨["act"], .Anagram, 0, 2, 0, 0, ["act", "cat"], [], []⟩

def exEmptyAnswers : QuizEngine :=
  ⟨[], .Anagram, 0, 0, 0, 0, [], [], []⟩

/-- Reached from fresh by `addIncorrect("a", 2)` then `addIncorrect("a", 3)`:
the second call overwrites the map entry but adds to the counter. -/
def pOverwritten : QuizProgress :=
  QuizProgress.addIncorrectCount (QuizProgress.addIncorrectCount QuizProgress.fresh "a" 2)
    "a" 3

def pRound : QuizProgress :=
  ⟨7, 3, 5, 2, [("cat", 4), ("dog", 1)], [("act", 2)]⟩

def exProgress : QuizProgress :=
  ⟨1, 2, 3, 4, [("ax", 3)], []⟩

def exBadDoc : DomElem := .mk "not-progress" [] []

def exGoodDoc : DomElem := .mk "progress" [("question", "3"), ("correct", "2")] []


theorem digitVal?_digitChar {d : Nat} (h : d < 10) : digitVal? (digitChar d) = some d := by
  interval_cases d <;> rfl

theorem parseDigitsAux_append (acc : Nat) (xs ys : List Char) :
    parseDigitsAux acc (xs ++ ys) =
      match parseDigitsAux acc xs with
      | some a => parseDigitsAux a ys
      | none => none := by
  induction xs generalizing acc with
  | nil => rfl
  | cons c cs ih =>
    simp only [List.cons_append, parseDigitsAux]
    cases digitVal? c with
    | some d => exact ih (acc * 10 + d)
    | none => rfl

theorem natDigitsAux_ne_nil {fuel n : Nat} (h : n < fuel) : natDigitsAux fuel n ≠ [] := by
  cases fuel with
  | zero => omega
  | succ f =>
    simp only [natDigitsAux]
    split
    · simp
    · simp

theorem parseDigitsAux_natDigitsAux {fuel : Nat} :
    ∀ {n : Nat}, n < fuel → ∀ acc : Nat,
      parseDigitsAux acc (natDigitsAux fuel n) =
        some (acc * 10 ^ (natDigitsAux fuel n).length + n) := by
  induction fuel with
  | zero => intro n h; omega
  | succ f ih =>
    intro n h acc
    simp only [natDigitsAux]
    by_cases h10 : n < 10
    · simp only [if_pos h10, parseDigitsAux, digitVal?_digitChar h10]
      norm_num
    · have hdiv : n / 10 < f := by omega
      have hmod : n % 10 < 10 := by omega
      simp only [if_neg h10, parseDigitsAux_append]
      rw [ih hdiv acc]
      simp only [parseDigitsAux, digitVal?_digitChar hmod, List.length_append,
        List.length_cons, List.length_nil, Option.some.injEq]
      have key : ∀ B : Nat, (B + n / 10) * 10 + n % 10 = B * 10 + n := by
        intro B; omega
      rw [key]
      ring

theorem parseNat?_natDigits (n : Nat) : parseNat? (natDigits n) = some n := by
  have hne : natDigits n ≠ [] := natDigitsAux_ne_nil (Nat.lt_succ_self n)
  have hparse := parseDigitsAux_natDigitsAux (Nat.lt_succ_self n) 0
  cases hd : natDigits n with
  | nil => exact absurd hd hne
  | cons c cs =>
    show parseDigitsAux 0 (c :: cs) = some n
    rw [← hd]
    unfold natDigits at hd hparse ⊢
    rw [hparse]
    simp

theorem natDigitsAux_head_digit {fuel n : Nat} (h : n < fuel) :
    ∃ d t, d < 10 ∧ natDigitsAux fuel n = digitChar d :: t := by
  induction fuel generalizing n with
  | zero => omega
  | succ f ih =>
    simp only [natDigitsAux]
    by_cases h10 : n < 10
    · exact ⟨n, [], h10, by simp [h10]⟩
    · have hdiv : n / 10 < f := by omega
      obtain ⟨d, t, hd, ht⟩ := ih hdiv
      exact ⟨d, t ++ [digitChar (n % 10)], hd, by simp [h10, ht]⟩

theorem digitChar_ne_dash {d : Nat} (h : d < 10) : digitChar d ≠ '-' := by
  interval_cases d <;> decide

theorem natDigits_head_digit (n : Nat) : ∃ d t, d < 10 ∧ natDigits n = digitChar d :: t := by
  unfold natDigits
  exact natDigitsAux_head_digit (Nat.lt_succ_self n)

theorem strToInt?_intToStr (n : Int) : strToInt? (intToStr n) = some n := by
  unfold strToInt? intToStr
  by_cases hneg : n < 0
  · simp only [if_pos hneg]
    show parseInt? ('-' :: natDigits n.natAbs) = some n
    rw [show parseInt? ('-' :: natDigits n.natAbs) =
      (parseNat? (natDigits n.natAbs)).map (fun (m : Nat) => -(m : Int)) from rfl]
    rw [parseNat?_natDigits]
    simp only [Option.map_some', Option.some.injEq]
    omega
  · simp only [if_neg hneg]
    obtain ⟨d, t, hd, ht⟩ := natDigits_head_digit n.toNat
    show parseInt? (natDigits n.toNat) = some n
    rw [ht]
    simp only [parseInt?]
    rw [if_neg (digitChar_ne_dash hd), ← ht, parseNat?_natDigits]
    simp only [Option.map_some', Option.some.injEq]
    omega

theorem charListLt_irrefl : ∀ l : List Char, charListLt l l = false := by
  intro l
  induction l with
  | nil => rfl
  | cons a as ih => simp [charListLt, ih]

theorem charListLt_asymm :
    ∀ {a b : List Char}, charListLt a b = true → charListLt b a = false := by
  intro a
  induction a with
  | nil =>
    intro b h
    cases b with
    | nil => exact absurd h (by simp [charListLt])
    | cons y ys => rfl
  | cons x xs ih =>
    intro b h
    cases b with
    | nil => exact absurd h (by simp [charListLt])
    | cons y ys =>
      simp only [charListLt] at h ⊢
      by_cases hxy : x < y
      · have hyx : ¬ y < x := lt_asymm hxy
        simp [hxy, hyx]
      · by_cases hyx : y < x
        · simp [hxy, hyx] at h
        · simp only [if_neg hxy, if_neg hyx] at h ⊢
          exact ih h

theorem charListLt_trans :
    ∀ {a b c : List Char}, charListLt a b = true → charListLt b c = true →
      charListLt a c = true := by
  intro a
  induction a with
  | nil =>
    intro b c hab hbc
    cases b with
    | nil => exact absurd hab (by simp [charListLt])
    | cons y ys =>
      cases c with
      | nil => exact absurd hbc (by simp [charListLt])
      | cons z zs => simp [charListLt]
  | cons x xs ih =>
    intro b c hab hbc
    cases b with
    | nil => exact absurd hab (by simp [charListLt])
    | cons y ys =>
      cases c with
      | nil => exact absurd hbc (by simp [charListLt])
      | cons z zs =>
        simp only [charListLt] at hab hbc ⊢
        by_cases hxy : x < y
        · by_cases hyz : y < z
          · simp [lt_trans hxy hyz]
          · by_cases hzy : z < y
            · simp [hyz, hzy] at hbc
            · have hyez : y = z := le_antisymm (not_lt.mp hzy) (not_lt.mp hyz)
              simp [hyez ▸ hxy]
        · by_cases hyx : y < x
          · simp [hxy, hyx] at hab
          · have hxey : x = y := le_antisymm (not_lt.mp hyx) (not_lt.mp hxy)
            simp only [if_neg hxy, if_neg hyx] at hab
            subst hxey
            by_cases hxz : x < z
            · simp [hxz]
            · by_cases hzx : z < x
              · simp [hxz, hzx] at hbc
              · simp only [if_neg hxz, if_neg hzx] at hbc ⊢
                exact ih hab hbc

theorem charListLt_total :
    ∀ {a b : List Char}, charListLt a b = false → charListLt b a = false → a = b := by
  intro a
  induction a with
  | nil =>
    intro b hab _
    cases b with
    | nil => rfl
    | cons y ys => exact absurd hab (by simp [charListLt])
  | cons x xs ih =>
    intro b hab hba
    cases b with
    | nil => exact absurd hba (by simp [charListLt])
    | cons y ys =>
      simp only [charListLt] at hab hba
      by_cases hxy : x < y
      · rw [if_pos hxy] at hab
        exact absurd hab (by simp)
      · by_cases hyx : y < x
        · rw [if_pos hyx] at hba
          exact absurd hba (by simp)
        · have hxey : x = y := le_antisymm (not_lt.mp hyx) (not_lt.mp hxy)
          rw [if_neg hxy, if_neg hyx] at hab
          rw [if_neg hyx, if_neg hxy] at hba
          rw [hxey, ih hab hba]

theorem strLt_irrefl (s : String) : strLt s s = false := charListLt_irrefl s.data

theorem strLt_asymm {a b : String} (h : strLt a b = true) : strLt b a = false :=
  charListLt_asymm h

theorem strLt_trans {a b c : String} (h1 : strLt a b = true) (h2 : strLt b c = true) :
    strLt a c = true :=
  charListLt_trans h1 h2

theorem strLt_total {a b : String} (h1 : strLt a b = false) (h2 : strLt b a = false) :
    a = b := by
  have h := charListLt_total h1 h2
  exact congrArg String.mk h

theorem mem_mapInsert {x : String × Int} {w : String} {c : Int} :
    ∀ {m : List (String × Int)}, x ∈ mapInsert w c m → x = (w, c) ∨ x ∈ m := by
  intro m
  induction m with
  | nil => intro h; simpa [mapInsert] using h
  | cons kv rest ih =>
    obtain ⟨k, v⟩ := kv
    intro h
    simp only [mapInsert] at h
    by_cases h1 : strLt w k = true
    · rw [if_pos h1] at h
      rcases List.mem_cons.mp h with h | h
      · exact Or.inl h
      · exact Or.inr h
    · rw [if_neg h1] at h
      by_cases h2 : w = k
      · rw [if_pos h2] at h
        rcases List.mem_cons.mp h with h | h
        · exact Or.inl h
        · exact Or.inr (List.mem_cons_of_mem _ h)
      · rw [if_neg h2] at h
        rcases List.mem_cons.mp h with h | h
        · exact Or.inr (by simp [h])
        · rcases ih h with h' | h'
          · exact Or.inl h'
          · exact Or.inr (List.mem_cons_of_mem _ h')

theorem mapContains_iff_mem_key {w : String} :
    ∀ {m : List (String × Int)}, mapContains w m = true ↔ ∃ v, (w, v) ∈ m := by
  intro m
  induction m with
  | nil => simp [mapContains]
  | cons kv rest ih =>
    obtain ⟨k, v⟩ := kv
    simp only [mapContains]
    by_cases hk : k = w
    · subst hk
      simp
    · rw [if_neg hk, ih]
      constructor
      · rintro ⟨u, hu⟩
        exact ⟨u, List.mem_cons_of_mem _ hu⟩
      · rintro ⟨u, hu⟩
        rcases List.mem_cons.mp hu with h | h
        · exact absurd (congrArg Prod.fst h).symm hk
        · exact ⟨u, h⟩

theorem mapContains_mapInsert {x w : String} {c : Int} :
    ∀ {m : List (String × Int)},
      mapContains x (mapInsert w c m) = true ↔ (x = w ∨ mapContains x m = true) := by
  intro m
  induction m with
  | nil =>
    show mapContains x [(w, c)] = true ↔ (x = w ∨ mapContains x [] = true)
    simp only [mapContains]
    by_cases hw : w = x
    · simp [hw]
    · rw [if_neg hw]
      constructor
      · intro h
        exact absurd h (by simp)
      · rintro (h | h)
        · exact absurd h.symm hw
        · exact absurd h (by simp)
  | cons kv rest ih =>
    obtain ⟨k, v⟩ := kv
    simp only [mapInsert]
    by_cases h1 : strLt w k = true
    · rw [if_pos h1]
      simp only [mapContains]
      by_cases hw : w = x
      · simp [hw]
      · rw [if_neg hw]
        by_cases hk : k = x
        · simp [hk]
        · rw [if_neg hk]
          constructor
          · intro h
            exact Or.inr h
          · rintro (h | h)
            · exact absurd h.symm hw
            · exact h
    · rw [if_neg h1]
      by_cases h2 : w = k
      · subst h2
        rw [if_pos rfl]
        simp only [mapContains]
        by_cases hw : w = x
        · simp [hw]
        · rw [if_neg hw]
          constructor
          · intro h
            exact Or.inr h
          · rintro (h | h)
            · exact absurd h.symm hw
            · exact h
      · rw [if_neg h2]
        simp only [mapContains]
        by_cases hk : k = x
        · simp [hk]
        · rw [if_neg hk, if_neg hk, ih]

theorem mapContains_eq_false_of_head_gt {w k : String} {v : Int}
    {rest : List (String × Int)} (hs : sortedMap ((k, v) :: rest))
    (hlt : strLt w k = true) : mapContains w ((k, v) :: rest) = false := by
  rw [← Bool.not_eq_true]
  intro hc
  rcases mapContains_iff_mem_key.mp hc with ⟨u, hu⟩
  rcases List.mem_cons.mp hu with h | h
  · have : w = k := congrArg Prod.fst h
    rw [this] at hlt
    exact absurd hlt (by simp [strLt_irrefl])
  · have hk := (List.pairwise_cons.mp hs).1 _ h
    have := strLt_trans hlt hk
    exact absurd (strLt_asymm this) (by simp [hlt, this])

theorem sortedMap_mapInsert {w : String} {c : Int} :
    ∀ {m : List (String × Int)}, sortedMap m → sortedMap (mapInsert w c m) := by
  intro m
  induction m with
  | nil => intro _; simp [mapInsert, sortedMap]
  | cons kv rest ih =>
    obtain ⟨k, v⟩ := kv
    intro hs
    have hs' := List.pairwise_cons.mp hs
    simp only [mapInsert]
    by_cases h1 : strLt w k = true
    · rw [if_pos h1]
      refine List.pairwise_cons.mpr ⟨?_, hs⟩
      intro b hb
      rcases List.mem_cons.mp hb with h | h
      · rw [h]; exact h1
      · exact strLt_trans h1 (hs'.1 _ h)
    · rw [if_neg h1]
      by_cases h2 : w = k
      · rw [if_pos h2]
        refine List.pairwise_cons.mpr ⟨?_, hs'.2⟩
        intro b hb
        exact h2 ▸ hs'.1 _ hb
      · rw [if_neg h2]
        refine List.pairwise_cons.mpr ⟨?_, ih hs'.2⟩
        have hkw : strLt k w = true := by
          cases hkw : strLt k w
          · exact absurd (strLt_total (by simpa using h1) hkw) h2
          · rfl
        intro b hb
        rcases mem_mapInsert hb with h | h
        · rw [h]; exact hkw
        · exact hs'.1 _ h

theorem sumCounts_mapInsert_not_contains {w : String} {c : Int} :
    ∀ {m : List (String × Int)}, mapContains w m = false →
      sumCounts (mapInsert w c m) = sumCounts m + c := by
  intro m
  induction m with
  | nil => intro _; simp [mapInsert, sumCounts]
  | cons kv rest ih =>
    obtain ⟨k, v⟩ := kv
    intro hnc
    simp only [mapContains] at hnc
    have hkw : k ≠ w := by
      intro he
      rw [if_pos he] at hnc
      exact Bool.noConfusion hnc
    rw [if_neg hkw] at hnc
    simp only [mapInsert]
    by_cases h1 : strLt w k = true
    · rw [if_pos h1]
      simp only [sumCounts]
      ring
    · rw [if_neg h1, if_neg (fun he => hkw he.symm)]
      simp only [sumCounts, ih hnc]
      ring

theorem sumCounts_mapInsert_contains {w : String} {c : Int} :
    ∀ {m : List (String × Int)}, sortedMap m → mapContains w m = true →
      sumCounts (mapInsert w c m) = sumCounts m - mapGet w m + c := by
  intro m
  induction m with
  | nil => intro _ hc; simp [mapContains] at hc
  | cons kv rest ih =>
    obtain ⟨k, v⟩ := kv
    intro hs hc
    have hs' := List.pairwise_cons.mp hs
    simp only [mapInsert]
    by_cases h1 : strLt w k = true
    · rw [mapContains_eq_false_of_head_gt hs h1] at hc
      exact Bool.noConfusion hc
    · rw [if_neg h1]
      by_cases h2 : w = k
      · rw [if_pos h2]
        simp only [sumCounts, mapGet, if_pos h2.symm]
        ring
      · rw [if_neg h2]
        have hkw : ¬ (k = w) := fun he => h2 he.symm
        simp only [mapContains, if_neg hkw] at hc
        simp only [sumCounts, mapGet, if_neg hkw, ih hs'.2 hc]
        ring

theorem mapInsert_append {w : String} {c : Int} :
    ∀ {m : List (String × Int)}, (∀ x ∈ m, strLt x.1 w = true) →
      mapInsert w c m = m ++ [(w, c)] := by
  intro m
  induction m with
  | nil => intro _; rfl
  | cons kv rest ih =>
    obtain ⟨k, v⟩ := kv
    intro hall
    have hk : strLt k w = true := hall (k, v) (by simp)
    simp only [mapInsert]
    rw [if_neg (by simp [strLt_asymm hk]), if_neg (by
      intro he
      rw [he] at hk
      exact absurd hk (by simp [strLt_irrefl]))]
    rw [ih (fun x hx => hall x (List.mem_cons_of_mem _ hx))]
    rfl

namespace QuizProgress

theorem WF_fresh : WF fresh := by
  refine ⟨rfl, rfl, ?_, ?_⟩ <;> simp [sortedMap, fresh]

theorem WF_addIncorrect {p : QuizProgress} (h : WF p) (w : String) :
    WF (addIncorrect p w) := by
  obtain ⟨hi, hm, hsi, hsm⟩ := h
  unfold addIncorrect
  by_cases hc : mapContains w p.incorrectWords
  · rw [if_pos hc]
    refine ⟨?_, hm, sortedMap_mapInsert hsi, hsm⟩
    show p.incorrect + 1 = sumCounts (mapInsert w (mapGet w p.incorrectWords + 1) p.incorrectWords)
    rw [sumCounts_mapInsert_contains hsi hc, ← hi]
    ring
  · rw [if_neg hc]
    refine ⟨?_, hm, sortedMap_mapInsert hsi, hsm⟩
    show p.incorrect + 1 = sumCounts (mapInsert w 1 p.incorrectWords)
    rw [sumCounts_mapInsert_not_contains (by simpa using hc), ← hi]

theorem WF_addMissed {p : QuizProgress} (h : WF p) (w : String) :
    WF (addMissed p w) := by
  obtain ⟨hi, hm, hsi, hsm⟩ := h
  unfold addMissed
  by_cases hc : mapContains w p.missedWords
  · rw [if_pos hc]
    refine ⟨hi, ?_, hsi, sortedMap_mapInsert hsm⟩
    show p.missed + 1 = sumCounts (mapInsert w (mapGet w p.missedWords + 1) p.missedWords)
    rw [sumCounts_mapInsert_contains hsm hc, ← hm]
    ring
  · rw [if_neg hc]
    refine ⟨hi, ?_, hsi, sortedMap_mapInsert hsm⟩
    show p.missed + 1 = sumCounts (mapInsert w 1 p.missedWords)
    rw [sumCounts_mapInsert_not_contains (by simpa using hc), ← hm]

theorem WF_addIncorrectCount {p : QuizProgress} (h : WF p) {w : String} (c : Int)
    (hnc : mapContains w p.incorrectWords = false) : WF (addIncorrectCount p w c) := by
  obtain ⟨hi, hm, hsi, hsm⟩ := h
  exact ⟨by
    show p.incorrect + c = sumCounts (mapInsert w c p.incorrectWords)
    rw [sumCounts_mapInsert_not_contains hnc, ← hi],
    hm, sortedMap_mapInsert hsi, hsm⟩

theorem WF_addMissedCount {p : QuizProgress} (h : WF p) {w : String} (c : Int)
    (hnc : mapContains w p.missedWords = false) : WF (addMissedCount p w c) := by
  obtain ⟨hi, hm, hsi, hsm⟩ := h
  exact ⟨hi, by
    show p.missed + c = sumCounts (mapInsert w c p.missedWords)
    rw [sumCounts_mapInsert_not_contains hnc, ← hm],
    hsi, sortedMap_mapInsert hsm⟩

theorem mapContains_mapInsert_false {x w : String} {c : Int}
    {m : List (String × Int)} :
    mapContains x (mapInsert w c m) = false ↔ (x ≠ w ∧ mapContains x m = false) := by
  constructor
  · intro h
    constructor
    · intro he
      rw [Bool.eq_false_iff] at h
      exact h (mapContains_mapInsert.mpr (Or.inl he))
    · rw [Bool.eq_false_iff] at h ⊢
      intro hc
      exact h (mapContains_mapInsert.mpr (Or.inr hc))
  · rintro ⟨hne, hnc⟩
    rw [Bool.eq_false_iff]
    intro hc
    rcases mapContains_mapInsert.mp hc with h | h
    · exact hne h
    · rw [h] at hnc
      exact Bool.noConfusion hnc

theorem parseResponses_false_WF :
    ∀ {rs : List DomElem} {tmp r : QuizProgress},
      parseResponses false tmp rs = some r → WF tmp →
      (wordsOf rs).Nodup →
      (∀ w ∈ wordsOf rs, mapContains w tmp.incorrectWords = false) →
      WF r ∧ r.missedWords = tmp.missedWords ∧
        (∀ k, mapContains k r.incorrectWords = true →
          mapContains k tmp.incorrectWords = true ∨ k ∈ wordsOf rs) := by
  intro rs
  induction rs with
  | nil =>
    intro tmp r h hwf _ _
    obtain rfl : tmp = r := Option.some.inj h
    exact ⟨hwf, rfl, fun k hk => Or.inl hk⟩
  | cons re rest ih =>
    intro tmp r h hwf hnd hnc
    rw [parseResponses] at h
    cases hw : attrGet "word" re.attrs with
    | none =>
      rw [hw] at h
      cases hc : attrGet "count" re.attrs with
      | none => rw [hc] at h; simp at h
      | some cstr => rw [hc] at h; simp at h
    | some word =>
      rw [hw] at h
      cases hc : attrGet "count" re.attrs with
      | none => rw [hc] at h; simp at h
      | some cstr =>
        rw [hc] at h
        replace h : (match strToInt? cstr with
          | some count => parseResponses false (addIncorrectCount tmp word count) rest
          | none => none) = some r := h
        cases hcount : strToInt? cstr with
        | none => rw [hcount] at h; simp at h
        | some count =>
          rw [hcount] at h
          replace h : parseResponses false (addIncorrectCount tmp word count) rest = some r := h
          have hwords : wordsOf (re :: rest) = word :: wordsOf rest := by
            simp [wordsOf, List.filterMap_cons, hw]
          rw [hwords] at hnd hnc
          have hword_f : mapContains word tmp.incorrectWords = false :=
            hnc word (by simp)
          have hwf' : WF (addIncorrectCount tmp word count) :=
            WF_addIncorrectCount hwf count hword_f
          have hnd' : (wordsOf rest).Nodup := (List.nodup_cons.mp hnd).2
          have hnotmem : word ∉ wordsOf rest := (List.nodup_cons.mp hnd).1
          have hnc' : ∀ w ∈ wordsOf rest,
              mapContains w (addIncorrectCount tmp word count).incorrectWords = false := by
            intro w hwmem
            show mapContains w (mapInsert word count tmp.incorrectWords) = false
            refine mapContains_mapInsert_false.mpr ⟨?_, hnc w (by simp [hwmem])⟩
            intro he
            rw [he] at hwmem
            exact hnotmem hwmem
          obtain ⟨hwfr, hmis, hchar⟩ := ih h hwf' hnd' hnc'
          refine ⟨hwfr, hmis, ?_⟩
          intro k hk
          rcases hchar k hk with hk' | hk'
          · rcases mapContains_mapInsert.mp hk' with hk'' | hk''
            · rw [hwords]
              exact Or.inr (by simp [hk''])
            · exact Or.inl hk''
          · rw [hwords]
            exact Or.inr (by simp [hk'])

theorem parseResponses_true_WF :
    ∀ {rs : List DomElem} {tmp r : QuizProgress},
      parseResponses true tmp rs = some r → WF tmp →
      (wordsOf rs).Nodup →
      (∀ w ∈ wordsOf rs, mapContains w tmp.missedWords = false) →
      WF r ∧ r.incorrectWords = tmp.incorrectWords ∧
        (∀ k, mapContains k r.missedWords = true →
          mapContains k tmp.missedWords = true ∨ k ∈ wordsOf rs) := by
  intro rs
  induction rs with
  | nil =>
    intro tmp r h hwf _ _
    obtain rfl : tmp = r := Option.some.inj h
    exact ⟨hwf, rfl, fun k hk => Or.inl hk⟩
  | cons re rest ih =>
    intro tmp r h hwf hnd hnc
    rw [parseResponses] at h
    cases hw : attrGet "word" re.attrs with
    | none =>
      rw [hw] at h
      cases hc : attrGet "count" re.attrs with
      | none => rw [hc] at h; simp at h
      | some cstr => rw [hc] at h; simp at h
    | some word =>
      rw [hw] at h
      cases hc : attrGet "count" re.attrs with
      | none => rw [hc] at h; simp at h
      | some cstr =>
        rw [hc] at h
        replace h : (match strToInt? cstr with
          | some count => parseResponses true (addMissedCount tmp word count) rest
          | none => none) = some r := h
        cases hcount : strToInt? cstr with
        | none => rw [hcount] at h; simp at h
        | some count =>
          rw [hcount] at h
          replace h : parseResponses true (addMissedCount tmp word count) rest = some r := h
          have hwords : wordsOf (re :: rest) = word :: wordsOf rest := by
            simp [wordsOf, List.filterMap_cons, hw]
          rw [hwords] at hnd hnc
          have hword_f : mapContains word tmp.missedWords = false :=
            hnc word (by simp)
          have hwf' : WF (addMissedCount tmp word count) :=
            WF_addMissedCount hwf count hword_f
          have hnd' : (wordsOf rest).Nodup := (List.nodup_cons.mp hnd).2
          have hnotmem : word ∉ wordsOf rest := (List.nodup_cons.mp hnd).1
          have hnc' : ∀ w ∈ wordsOf rest,
              mapContains w (addMissedCount tmp word count).missedWords = false := by
            intro w hwmem
            show mapContains w (mapInsert word count tmp.missedWords) = false
            refine mapContains_mapInsert_false.mpr ⟨?_, hnc w (by simp [hwmem])⟩
            intro he
            rw [he] at hwmem
            exact hnotmem hwmem
          obtain ⟨hwfr, hinc, hchar⟩ := ih h hwf' hnd' hnc'
          refine ⟨hwfr, hinc, ?_⟩
          intro k hk
          rcases hchar k hk with hk' | hk'
          · rcases mapContains_mapInsert.mp hk' with hk'' | hk''
            · rw [hwords]
              exact Or.inr (by simp [hk''])
            · exact Or.inl hk''
          · rw [hwords]
            exact Or.inr (by simp [hk'])

theorem parseChildren_WF :
    ∀ {cs : List DomElem} {tmp r : QuizProgress},
      parseChildren tmp cs = some r → WF tmp →
      (incWordsOf cs).Nodup → (misWordsOf cs).Nodup →
      (∀ w ∈ incWordsOf cs, mapContains w tmp.incorrectWords = false) →
      (∀ w ∈ misWordsOf cs, mapContains w tmp.missedWords = false) →
      WF r := by
  intro cs
  induction cs with
  | nil =>
    intro tmp r h hwf _ _ _ _
    obtain rfl : tmp = r := Option.some.inj h
    exact hwf
  | cons c rest ih =>
    intro tmp r h hwf hndi hndm hnci hncm
    rw [parseChildren] at h
    by_cases hm : c.tag = "missed-responses"
    · rw [if_pos hm] at h
      have hmw : misWordsOf (c :: rest) = wordsOf c.children ++ misWordsOf rest := by
        simp [misWordsOf, hm]
      have hiw : incWordsOf (c :: rest) = incWordsOf rest := by
        simp [incWordsOf, hm]
      rw [hmw] at hndm hncm
      rw [hiw] at hndi hnci
      rcases List.nodup_append.mp hndm with ⟨hnd1, hnd2, hdisj⟩
      cases hp : parseResponses true tmp c.children with
      | none => rw [hp] at h; simp at h
      | some tmp' =>
        rw [hp] at h
        replace h : parseChildren tmp' rest = some r := h
        obtain ⟨hwf', hinc', hchar⟩ := parseResponses_true_WF hp hwf hnd1
          (fun w hw => hncm w (List.mem_append_left _ hw))
        refine ih h hwf' hndi hnd2 ?_ ?_
        · intro w hw
          rw [hinc']
          exact hnci w hw
        · intro w hw
          rw [Bool.eq_false_iff]
          intro hcon
          rcases hchar w hcon with hk | hk
          · have := hncm w (List.mem_append_right _ hw)
            rw [hk] at this
            exact Bool.noConfusion this
          · exact hdisj hk hw
    · rw [if_neg hm] at h
      by_cases hi : c.tag = "incorrect-responses"
      · rw [if_pos hi] at h
        have hmw : misWordsOf (c :: rest) = misWordsOf rest := by
          simp [misWordsOf, hm]
        have hiw : incWordsOf (c :: rest) = wordsOf c.children ++ incWordsOf rest := by
          simp [incWordsOf, hm]
        rw [hmw] at hndm hncm
        rw [hiw] at hndi hnci
        rcases List.nodup_append.mp hndi with ⟨hnd1, hnd2, hdisj⟩
        cases hp : parseResponses false tmp c.children with
        | none => rw [hp] at h; simp at h
        | some tmp' =>
          rw [hp] at h
          replace h : parseChildren tmp' rest = some r := h
          obtain ⟨hwf', hmis', hchar⟩ := parseResponses_false_WF hp hwf hnd1
            (fun w hw => hnci w (List.mem_append_left _ hw))
          refine ih h hwf' hnd2 hndm ?_ ?_
          · intro w hw
            rw [Bool.eq_false_iff]
            intro hcon
            rcases hchar w hcon with hk | hk
            · have := hnci w (List.mem_append_right _ hw)
              rw [hk] at this
              exact Bool.noConfusion this
            · exact hdisj hk hw
          · intro w hw
            rw [hmis']
            exact hncm w hw
      · rw [if_neg hi] at h
        simp at h

theorem parseQuestionAttr_frame {e : DomElem} {p q : QuizProgress}
    (h : parseQuestionAttr e p = some q) :
    q.incorrect = p.incorrect ∧ q.missed = p.missed ∧
      q.incorrectWords = p.incorrectWords ∧ q.missedWords = p.missedWords := by
  unfold parseQuestionAttr at h
  cases ha : attrGet "question" e.attrs with
  | none =>
    rw [ha] at h
    obtain rfl : p = q := Option.some.inj h
    exact ⟨rfl, rfl, rfl, rfl⟩
  | some s =>
    rw [ha] at h
    replace h : (match strToInt? s with
      | none => none
      | some n => some (setQuestion p n)) = some q := h
    cases hi : strToInt? s with
    | none => rw [hi] at h; simp at h
    | some n =>
      rw [hi] at h
      obtain rfl : setQuestion p n = q := Option.some.inj h
      exact ⟨rfl, rfl, rfl, rfl⟩

theorem parseCorrectAttr_frame {e : DomElem} {p q : QuizProgress}
    (h : parseCorrectAttr e p = some q) :
    q.incorrect = p.incorrect ∧ q.missed = p.missed ∧
      q.incorrectWords = p.incorrectWords ∧ q.missedWords = p.missedWords := by
  unfold parseCorrectAttr at h
  cases ha : attrGet "correct" e.attrs with
  | none =>
    rw [ha] at h
    obtain rfl : p = q := Option.some.inj h
    exact ⟨rfl, rfl, rfl, rfl⟩
  | some s =>
    rw [ha] at h
    replace h : (match strToInt? s with
      | none => none
      | some n => some (setCorrect p n)) = some q := h
    cases hi : strToInt? s with
    | none => rw [hi] at h; simp at h
    | some n =>
      rw [hi] at h
      obtain rfl : setCorrect p n = q := Option.some.inj h
      exact ⟨rfl, rfl, rfl, rfl⟩

theorem parseProgress_WF {e : DomElem} {r : QuizProgress}
    (h : parseProgress e = some r) (hd : dupFree e) : WF r := by
  unfold parseProgress at h
  by_cases ht : e.tag = "progress"
  · rw [if_pos ht] at h
    cases hq : parseQuestionAttr e fresh with
    | none => rw [hq] at h; simp at h
    | some tmp1 =>
      rw [hq] at h
      replace h : (match parseCorrectAttr e tmp1 with
        | none => none
        | some tmp => parseChildren tmp e.children) = some r := h
      cases hc : parseCorrectAttr e tmp1 with
      | none => rw [hc] at h; simp at h
      | some tmp2 =>
        rw [hc] at h
        replace h : parseChildren tmp2 e.children = some r := h
        obtain ⟨hq1, hq2, hq3, hq4⟩ := parseQuestionAttr_frame hq
        obtain ⟨hc1, hc2, hc3, hc4⟩ := parseCorrectAttr_frame hc
        have hwf2 : WF tmp2 := by
          refine ⟨?_, ?_, ?_, ?_⟩
          · rw [hc1, hq1, hc3, hq3]
            exact WF_fresh.1
          · rw [hc2, hq2, hc4, hq4]
            exact WF_fresh.2.1
          · rw [hc3, hq3]
            exact WF_fresh.2.2.1
          · rw [hc4, hq4]
            exact WF_fresh.2.2.2
        refine parseChildren_WF h hwf2 hd.1 hd.2 ?_ ?_
        · intro w _
          rw [hc3, hq3]
          rfl
        · intro w _
          rw [hc4, hq4]
          rfl
  · rw [if_neg ht] at h
    simp at h

theorem fromDomElement_WF {p : QuizProgress} {e : DomElem}
    (hp : WF p) (hd : dupFree e) : WF (fromDomElement p e).1 := by
  unfold fromDomElement
  cases hpe : parseProgress e with
  | none => exact hp
  | some t => exact parseProgress_WF hpe hd

theorem GoodReach_WF {p : QuizProgress} (h : GoodReach p) : WF p := by
  induction h with
  | start => exact WF_fresh
  | addInc p w _ ih => exact WF_addIncorrect ih w
  | addIncCount p w c _ hnc ih => exact WF_addIncorrectCount ih c hnc
  | addMis p w _ ih => exact WF_addMissed ih w
  | addMisCount p w c _ hnc ih => exact WF_addMissedCount ih c hnc
  | deserialize p e _ hd ih => exact fromDomElement_WF ih hd

/-! ### Round-tripping serialization -/

theorem parseResponses_false_encode :
    ∀ (l : List (String × Int)) (tmp : QuizProgress),
      parseResponses false tmp (l.map encodeEntry) =
        some (l.foldl (fun t wc => addIncorrectCount t wc.1 wc.2) tmp) := by
  intro l
  induction l with
  | nil => intro tmp; rfl
  | cons wc rest ih =>
    intro tmp
    obtain ⟨w, c⟩ := wc
    rw [List.map_cons]
    have step : parseResponses false tmp (encodeEntry (w, c) :: rest.map encodeEntry) =
        match strToInt? (intToStr c) with
        | some count =>
          parseResponses false (addIncorrectCount tmp w count) (rest.map encodeEntry)
        | none => none := rfl
    rw [step, strToInt?_intToStr]
    show parseResponses false (addIncorrectCount tmp w c) (rest.map encodeEntry) = _
    rw [ih]
    rfl

theorem parseResponses_true_encode :
    ∀ (l : List (String × Int)) (tmp : QuizProgress),
      parseResponses true tmp (l.map encodeEntry) =
        some (l.foldl (fun t wc => addMissedCount t wc.1 wc.2) tmp) := by
  intro l
  induction l with
  | nil => intro tmp; rfl
  | cons wc rest ih =>
    intro tmp
    obtain ⟨w, c⟩ := wc
    rw [List.map_cons]
    have step : parseResponses true tmp (encodeEntry (w, c) :: rest.map encodeEntry) =
        match strToInt? (intToStr c) with
        | some count =>
          parseResponses true (addMissedCount tmp w count) (rest.map encodeEntry)
        | none => none := rfl
    rw [step, strToInt?_intToStr]
    show parseResponses true (addMissedCount tmp w c) (rest.map encodeEntry) = _
    rw [ih]
    rfl

theorem foldl_addIncorrectCount :
    ∀ (l : List (String × Int)) (tmp : QuizProgress),
      (∀ x ∈ l, ∀ y ∈ tmp.incorrectWords, strLt y.1 x.1 = true) →
      List.Pairwise (fun a b : String × Int => strLt a.1 b.1 = true) l →
      l.foldl (fun t wc => addIncorrectCount t wc.1 wc.2) tmp =
        { tmp with incorrectWords := tmp.incorrectWords ++ l,
                   incorrect := tmp.incorrect + sumCounts l } := by
  intro l
  induction l with
  | nil =>
    intro tmp _ _
    show tmp = _
    simp [sumCounts]
  | cons wc rest ih =>
    intro tmp hlo hpw
    obtain ⟨w, c⟩ := wc
    rw [List.foldl_cons]
    have hw : ∀ y ∈ tmp.incorrectWords, strLt y.1 w = true := by
      intro y hy
      exact hlo (w, c) (by simp) y hy
    have hstep : addIncorrectCount tmp w c =
        { tmp with incorrectWords := tmp.incorrectWords ++ [(w, c)],
                   incorrect := tmp.incorrect + c } := by
      unfold addIncorrectCount
      rw [mapInsert_append hw]
    rw [hstep]
    rw [ih _ ?_ (List.pairwise_cons.mp hpw).2]
    · simp [sumCounts, add_assoc]
    · intro x hx y hy
      simp only [List.mem_append] at hy
      rcases hy with hy | hy
      · exact hlo x (List.mem_cons_of_mem _ hx) y hy
      · have : y = (w, c) := by simpa using hy
        rw [this]
        exact (List.pairwise_cons.mp hpw).1 x hx

theorem foldl_addMissedCount :
    ∀ (l : List (String × Int)) (tmp : QuizProgress),
      (∀ x ∈ l, ∀ y ∈ tmp.missedWords, strLt y.1 x.1 = true) →
      List.Pairwise (fun a b : String × Int => strLt a.1 b.1 = true) l →
      l.foldl (fun t wc => addMissedCount t wc.1 wc.2) tmp =
        { tmp with missedWords := tmp.missedWords ++ l,
                   missed := tmp.missed + sumCounts l } := by
  intro l
  induction l with
  | nil =>
    intro tmp _ _
    show tmp = _
    simp [sumCounts]
  | cons wc rest ih =>
    intro tmp hlo hpw
    obtain ⟨w, c⟩ := wc
    rw [List.foldl_cons]
    have hw : ∀ y ∈ tmp.missedWords, strLt y.1 w = true := by
      intro y hy
      exact hlo (w, c) (by simp) y hy
    have hstep : addMissedCount tmp w c =
        { tmp with missedWords := tmp.missedWords ++ [(w, c)],
                   missed := tmp.missed + c } := by
      unfold addMissedCount
      rw [mapInsert_append hw]
    rw [hstep]
    rw [ih _ ?_ (List.pairwise_cons.mp hpw).2]
    · simp [sumCounts, add_assoc]
    · intro x hx y hy
      simp only [List.mem_append] at hy
      rcases hy with hy | hy
      · exact hlo x (List.mem_cons_of_mem _ hx) y hy
      · have : y = (w, c) := by simpa using hy
        rw [this]
        exact (List.pairwise_cons.mp hpw).1 x hx

theorem parseChildren_inc_section (l : List (String × Int)) (tmp : QuizProgress)
    (rest : List DomElem)
    (hpw : List.Pairwise (fun a b : String × Int => strLt a.1 b.1 = true) l)
    (hmaps : tmp.incorrectWords = []) :
    parseChildren tmp (DomElem.mk "incorrect-responses" [] (l.map encodeEntry) :: rest) =
      parseChildren { tmp with incorrectWords := l,
                               incorrect := tmp.incorrect + sumCounts l } rest := by
  have htag : (DomElem.mk "incorrect-responses" [] (l.map encodeEntry)).tag =
      "incorrect-responses" := rfl
  rw [parseChildren, htag]
  rw [if_neg (by decide), if_pos rfl]
  rw [show (DomElem.mk "incorrect-responses" [] (l.map encodeEntry)).children =
    l.map encodeEntry from rfl]
  rw [parseResponses_false_encode]
  show parseChildren (l.foldl (fun t wc => addIncorrectCount t wc.1 wc.2) tmp) rest = _
  rw [foldl_addIncorrectCount l tmp (by
    intro x _ y hy
    rw [hmaps] at hy
    simp at hy) hpw]
  rw [hmaps, List.nil_append]

theorem parseChildren_mis_section (l : List (String × Int)) (tmp : QuizProgress)
    (rest : List DomElem)
    (hpw : List.Pairwise (fun a b : String × Int => strLt a.1 b.1 = true) l)
    (hmaps : tmp.missedWords = []) :
    parseChildren tmp (DomElem.mk "missed-responses" [] (l.map encodeEntry) :: rest) =
      parseChildren { tmp with missedWords := l,
                               missed := tmp.missed + sumCounts l } rest := by
  have htag : (DomElem.mk "missed-responses" [] (l.map encodeEntry)).tag =
      "missed-responses" := rfl
  rw [parseChildren, htag]
  rw [if_pos rfl]
  rw [show (DomElem.mk "missed-responses" [] (l.map encodeEntry)).children =
    l.map encodeEntry from rfl]
  rw [parseResponses_true_encode]
  show parseChildren (l.foldl (fun t wc => addMissedCount t wc.1 wc.2) tmp) rest = _
  rw [foldl_addMissedCount l tmp (by
    intro x _ y hy
    rw [hmaps] at hy
    simp at hy) hpw]
  rw [hmaps, List.nil_append]

theorem fromDomElement_asDomElement (q p : QuizProgress)
    (hsi : sortedMap p.incorrectWords) (hsm : sortedMap p.missedWords)
    (hi : p.incorrect = sumCounts p.incorrectWords)
    (hm : p.missed = sumCounts p.missedWords) :
    fromDomElement q (asDomElement p) = (p, true) := by
  obtain ⟨pq, pc, pi, pm, piw, pmw⟩ := p
  dsimp only at hsi hsm hi hm
  have hparse : parseProgress
      (asDomElement (QuizProgress.mk pq pc pi pm piw pmw)) =
      some (QuizProgress.mk pq pc pi pm piw pmw) := by
    have hq : parseQuestionAttr (asDomElement (QuizProgress.mk pq pc pi pm piw pmw))
        fresh = some (setQuestion fresh pq) := by
      show (match strToInt? (intToStr pq) with
        | none => none
        | some n => some (setQuestion fresh n)) = some (setQuestion fresh pq)
      rw [strToInt?_intToStr]
    have hc : parseCorrectAttr (asDomElement (QuizProgress.mk pq pc pi pm piw pmw))
        (setQuestion fresh pq) = some (setCorrect (setQuestion fresh pq) pc) := by
      show (match strToInt? (intToStr pc) with
        | none => none
        | some n => some (setCorrect (setQuestion fresh pq) n)) =
          some (setCorrect (setQuestion fresh pq) pc)
      rw [strToInt?_intToStr]
    have htop : (asDomElement (QuizProgress.mk pq pc pi pm piw pmw)).tag =
        "progress" := rfl
    unfold parseProgress
    rw [if_pos htop, hq]
    show (match parseCorrectAttr (asDomElement (QuizProgress.mk pq pc pi pm piw pmw))
        (setQuestion fresh pq) with
      | none => none
      | some tmp => parseChildren tmp
          (asDomElement (QuizProgress.mk pq pc pi pm piw pmw)).children) =
        some (QuizProgress.mk pq pc pi pm piw pmw)
    rw [hc]
    show parseChildren (QuizProgress.mk pq pc 0 0 [] [])
        ((if piw.isEmpty then []
          else [DomElem.mk "incorrect-responses" [] (piw.map encodeEntry)]) ++
         (if pmw.isEmpty then []
          else [DomElem.mk "missed-responses" [] (pmw.map encodeEntry)])) =
        some (QuizProgress.mk pq pc pi pm piw pmw)
    cases piw with
    | nil =>
      cases pmw with
      | nil =>
        show some (QuizProgress.mk pq pc 0 0 [] []) =
          some (QuizProgress.mk pq pc pi pm [] [])
        rw [hi, hm]
        rfl
      | cons m0 mr =>
        show parseChildren (QuizProgress.mk pq pc 0 0 [] [])
          [DomElem.mk "missed-responses" [] ((m0 :: mr).map encodeEntry)] =
          some (QuizProgress.mk pq pc pi pm [] (m0 :: mr))
        rw [parseChildren_mis_section (m0 :: mr) _ [] hsm rfl]
        show some (QuizProgress.mk pq pc 0 (0 + sumCounts (m0 :: mr)) [] (m0 :: mr)) =
          some (QuizProgress.mk pq pc pi pm [] (m0 :: mr))
        rw [hi, hm, zero_add]
        rfl
    | cons i0 ir =>
      cases pmw with
      | nil =>
        show parseChildren (QuizProgress.mk pq pc 0 0 [] [])
          [DomElem.mk "incorrect-responses" [] ((i0 :: ir).map encodeEntry)] =
          some (QuizProgress.mk pq pc pi pm (i0 :: ir) [])
        rw [parseChildren_inc_section (i0 :: ir) _ [] hsi rfl]
        show some (QuizProgress.mk pq pc (0 + sumCounts (i0 :: ir)) 0 (i0 :: ir) []) =
          some (QuizProgress.mk pq pc pi pm (i0 :: ir) [])
        rw [hi, hm, zero_add]
        rfl
      | cons m0 mr =>
        show parseChildren (QuizProgress.mk pq pc 0 0 [] [])
          [DomElem.mk "incorrect-responses" [] ((i0 :: ir).map encodeEntry),
           DomElem.mk "missed-responses" [] ((m0 :: mr).map encodeEntry)] =
          some (QuizProgress.mk pq pc pi pm (i0 :: ir) (m0 :: mr))
        rw [parseChildren_inc_section (i0 :: ir) _ _ hsi rfl]
        rw [parseChildren_mis_section (m0 :: mr) _ [] hsm rfl]
        show some (QuizProgress.mk pq pc (0 + sumCounts (i0 :: ir))
            (0 + sumCounts (m0 :: mr)) (i0 :: ir) (m0 :: mr)) =
          some (QuizProgress.mk pq pc pi pm (i0 :: ir) (m0 :: mr))
        rw [hi, hm, zero_add, zero_add]
  unfold fromDomElement
  rw [hparse]

end QuizProgress

namespace QuizEngine

theorem mem_setInsert {x w : String} :
    ∀ {l : List String}, x ∈ setInsert w l ↔ (x = w ∨ x ∈ l) := by
  intro l
  induction l with
  | nil => simp [setInsert]
  | cons y ys ih =>
    simp only [setInsert]
    by_cases h1 : strLt w y = true
    · rw [if_pos h1]
      simp only [List.mem_cons]
    · rw [if_neg h1]
      by_cases h2 : w = y
      · rw [if_pos h2]
        subst h2
        simp only [List.mem_cons]
        tauto
      · rw [if_neg h2]
        simp only [List.mem_cons, ih]
        tauto

theorem respond_frame (s : QuizEngine) (r : String) :
    ((respond s r).1).quizQuestions = s.quizQuestions ∧
    ((respond s r).1).quizType = s.quizType ∧
    ((respond s r).1).questionIndex = s.questionIndex ∧
    ((respond s r).1).correctResponses = s.correctResponses ∧
    ((respond s r).1).quizTotal = s.quizTotal := by
  unfold respond
  by_cases h1 : r ∉ s.correctResponses
  · rw [if_pos h1]
    exact ⟨rfl, rfl, rfl, rfl, rfl⟩
  · rw [if_neg h1]
    by_cases h2 : r ∈ s.correctUserResponses
    · rw [if_pos h2]
      exact ⟨rfl, rfl, rfl, rfl, rfl⟩
    · rw [if_neg h2]
      exact ⟨rfl, rfl, rfl, rfl, rfl⟩

theorem applyOp_mono (we : WordEngine) (s : QuizEngine) (op : QuizOp) :
    s.quizCorrect ≤ (applyOp we s op).quizCorrect ∧
    s.quizIncorrect ≤ (applyOp we s op).quizIncorrect ∧
    s.quizTotal ≤ (applyOp we s op).quizTotal := by
  cases op with
  | respond r =>
    show s.quizCorrect ≤ ((respond s r).1).quizCorrect ∧
      s.quizIncorrect ≤ ((respond s r).1).quizIncorrect ∧
      s.quizTotal ≤ ((respond s r).1).quizTotal
    unfold respond
    by_cases h1 : r ∉ s.correctResponses
    · rw [if_pos h1]
      exact ⟨Nat.le_refl _, Nat.le_succ _, Nat.le_refl _⟩
    · rw [if_neg h1]
      by_cases h2 : r ∈ s.correctUserResponses
      · rw [if_pos h2]
        exact ⟨Nat.le_refl _, Nat.le_refl _, Nat.le_refl _⟩
      · rw [if_neg h2]
        exact ⟨Nat.le_succ _, Nat.le_refl _, Nat.le_refl _⟩
  | next =>
    show s.quizCorrect ≤ ((nextQuestion we s).1).quizCorrect ∧
      s.quizIncorrect ≤ ((nextQuestion we s).1).quizIncorrect ∧
      s.quizTotal ≤ ((nextQuestion we s).1).quizTotal
    unfold nextQuestion
    by_cases h : onLastQuestion s = true
    · rw [if_pos h]
      exact ⟨Nat.le_refl _, Nat.le_refl _, Nat.le_refl _⟩
    · rw [if_neg h]
      refine ⟨Nat.le_refl _, Nat.le_refl _, ?_⟩
      exact Nat.le_add_right _ _

theorem runOps_mono (we : WordEngine) :
    ∀ (ops : List QuizOp) (s : QuizEngine),
      s.quizCorrect ≤ (runOps we s ops).quizCorrect ∧
      s.quizIncorrect ≤ (runOps we s ops).quizIncorrect ∧
      s.quizTotal ≤ (runOps we s ops).quizTotal := by
  intro ops
  induction ops with
  | nil => intro s; exact ⟨Nat.le_refl _, Nat.le_refl _, Nat.le_refl _⟩
  | cons op rest ih =>
    intro s
    obtain ⟨h1, h2, h3⟩ := applyOp_mono we s op
    obtain ⟨g1, g2, g3⟩ := ih (applyOp we s op)
    exact ⟨Nat.le_trans h1 g1, Nat.le_trans h2 g2, Nat.le_trans h3 g3⟩

theorem Inv_prepareQuestion (we : WordEngine) (s : QuizEngine) :
    Inv (prepareQuestion we s) := by
  intro w hw
  have h : (prepareQuestion we s).correctUserResponses = [] := rfl
  rw [h] at hw
  simp at hw

theorem Inv_respond {s : QuizEngine} (h : Inv s) (r : String) :
    Inv ((respond s r).1) := by
  unfold respond
  by_cases h1 : r ∉ s.correctResponses
  · rw [if_pos h1]
    exact h
  · rw [if_neg h1]
    by_cases h2 : r ∈ s.correctUserResponses
    · rw [if_pos h2]
      exact h
    · rw [if_neg h2]
      intro w hw
      have hw' : w ∈ setInsert r s.correctUserResponses := hw
      rcases mem_setInsert.mp hw' with rfl | hw''
      · exact not_not.mp h1
      · exact h w hw''

theorem Inv_applyOp (we : WordEngine) {s : QuizEngine} (h : Inv s) (op : QuizOp) :
    Inv (applyOp we s op) := by
  cases op with
  | respond r => exact Inv_respond h r
  | next =>
    show Inv ((nextQuestion we s).1)
    unfold nextQuestion
    by_cases hl : onLastQuestion s = true
    · rw [if_pos hl]
      exact h
    · rw [if_neg hl]
      exact Inv_prepareQuestion we _

theorem Inv_runOps (we : WordEngine) :
    ∀ (ops : List QuizOp) {s : QuizEngine}, Inv s → Inv (runOps we s ops) := by
  intro ops
  induction ops with
  | nil => intro s h; exact h
  | cons op rest ih => intro s h; exact ih (Inv_applyOp we h op)

theorem Inv_newQuiz (we : WordEngine) (rand : Nat → Nat) (input : String)
    (type : MatchType) (a r : Bool) : Inv (newQuiz we rand input type a r) :=
  Inv_prepareQuestion we _

theorem quizType_applyOp (we : WordEngine) (s : QuizEngine) (op : QuizOp) :
    (applyOp we s op).quizType = s.quizType := by
  cases op with
  | respond r => exact (respond_frame s r).2.1
  | next =>
    show ((nextQuestion we s).1).quizType = s.quizType
    unfold nextQuestion
    by_cases hl : onLastQuestion s = true
    · rw [if_pos hl]
    · rw [if_neg hl]
      rfl

theorem quizType_runOps (we : WordEngine) :
    ∀ (ops : List QuizOp) (s : QuizEngine), (runOps we s ops).quizType = s.quizType := by
  intro ops
  induction ops with
  | nil => intro s; rfl
  | cons op rest ih =>
    intro s
    rw [show runOps we s (op :: rest) = runOps we (applyOp we s op) rest from rfl]
    rw [ih, quizType_applyOp]

theorem shuffle_singleton (rand : Nat → Nat) (x : String) : shuffle rand [x] = [x] := by
  have h : rand 0 % 1 = 0 := Nat.mod_one _
  show (if rand 0 % 1 = 0 then [x] else swapAt [x] 0 (rand 0 % 1)) = [x]
  rw [if_pos h]

end QuizEngine

/-! ### Claim theorems -/

/-- C1: `respond` classifies in this order: a response not in
`correctAnswers` is appended to `userIncorrect`, `totalIncorrect` is
incremented and `Incorrect` is returned (no deduplication: a repeated
incorrect response is appended and counted again); else a response already
in `userCorrect` returns `Duplicate` changing nothing; else the response
joins `userCorrect`, `totalCorrect` is incremented and `Correct` is
returned.  In particular a second `respond(w)` with `w ∈ correctAnswers`
returns `Duplicate` and leaves the state exactly as after the first call. -/
theorem respond_classification (s : QuizEngine) (r : String) :
    (r ∉ s.correctResponses →
      QuizEngine.respond s r =
        ({ s with incorrectUserResponses := s.incorrectUserResponses ++ [r],
                  quizIncorrect := s.quizIncorrect + 1 }, .Incorrect)) ∧
    (r ∈ s.correctResponses → r ∈ s.correctUserResponses →
      QuizEngine.respond s r = (s, .Duplicate)) ∧
    (r ∈ s.correctResponses → r ∉ s.correctUserResponses →
      QuizEngine.respond s r =
        ({ s with correctUserResponses := setInsert r s.correctUserResponses,
                  quizCorrect := s.quizCorrect + 1 }, .Correct)) ∧
    (r ∉ s.correctResponses →
      ((QuizEngine.respond (QuizEngine.respond s r).1 r).1).incorrectUserResponses =
          s.incorrectUserResponses ++ [r, r] ∧
        ((QuizEngine.respond (QuizEngine.respond s r).1 r).1).quizIncorrect =
          s.quizIncorrect + 2) ∧
    (r ∈ s.correctResponses →
      (QuizEngine.respond (QuizEngine.respond s r).1 r).2 = .Duplicate ∧
      (QuizEngine.respond (QuizEngine.respond s r).1 r).1 =
        (QuizEngine.respond s r).1) := by
  have hInc : ∀ s' : QuizEngine, r ∉ s'.correctResponses →
      QuizEngine.respond s' r =
        ({ s' with incorrectUserResponses := s'.incorrectUserResponses ++ [r],
                   quizIncorrect := s'.quizIncorrect + 1 }, .Incorrect) := by
    intro s' h
    unfold QuizEngine.respond
    rw [if_pos h]
  have hDup : ∀ s' : QuizEngine, r ∈ s'.correctResponses → r ∈ s'.correctUserResponses →
      QuizEngine.respond s' r = (s', .Duplicate) := by
    intro s' h1 h2
    unfold QuizEngine.respond
    rw [if_neg (not_not_intro h1), if_pos h2]
  have hCor : ∀ s' : QuizEngine, r ∈ s'.correctResponses → r ∉ s'.correctUserResponses →
      QuizEngine.respond s' r =
        ({ s' with correctUserResponses := setInsert r s'.correctUserResponses,
                   quizCorrect := s'.quizCorrect + 1 }, .Correct) := by
    intro s' h1 h2
    unfold QuizEngine.respond
    rw [if_neg (not_not_intro h1), if_neg h2]
  refine ⟨hInc s, hDup s, hCor s, ?_, ?_⟩
  · intro h1
    rw [hInc s h1]
    rw [hInc { s with incorrectUserResponses := s.incorrectUserResponses ++ [r], quizIncorrect := s.quizIncorrect + 1 } h1]
    refine ⟨?_, rfl⟩
    show (s.incorrectUserResponses ++ [r]) ++ [r] = s.incorrectUserResponses ++ [r, r]
    rw [List.append_assoc]
    rfl
  · intro h1
    by_cases h2 : r ∈ s.correctUserResponses
    · rw [hDup s h1 h2, hDup s h1 h2]
      exact ⟨rfl, rfl⟩
    · rw [hCor s h1 h2]
      rw [hDup { s with correctUserResponses := setInsert r s.correctUserResponses, quizCorrect := s.quizCorrect + 1 } h1 (QuizEngine.mem_setInsert.mpr (Or.inl rfl))]
      exact ⟨rfl, rfl⟩

/-- Witness for C1 at the session of spec scenario 1: answers
`{"act", "cat"}`, responses `"cat"` (twice) and `"dog"` (twice). -/
theorem respond_classification_witness :
    ("cat" ∈ exAnswers.correctResponses ∧ "dog" ∉ exAnswers.correctResponses) ∧
    (QuizEngine.respond (QuizEngine.respond exAnswers "cat").1 "cat").2 =
      ResponseStatus.Duplicate ∧
    ((QuizEngine.respond (QuizEngine.respond exAnswers "dog").1 "dog").1).quizIncorrect =
      2 :=
  ⟨⟨by decide, by decide⟩,
   ((respond_classification exAnswers "cat").2.2.2.2 (by decide)).1,
   ((respond_classification exAnswers "dog").2.2.2.1 (by decide)).2⟩

/-- C2: with `useAlphagrams = true` a `Pattern` quiz runs with effective
type `Anagram` for the whole remainder of the session, while `Anagram` and
`Subanagram` keep the requested type; with `useAlphagrams = false` the
effective type is the requested type and the question list is exactly the
single-element list `[queryText]`. -/
theorem newQuiz_effectiveType (we : WordEngine) (rand : Nat → Nat) (input : String)
    (ro : Bool) (ops : List QuizEngine.QuizOp) :
    (sessionAfter we rand input .Pattern true ro ops).quizType = .Anagram ∧
    (sessionAfter we rand input .Anagram true ro ops).quizType = .Anagram ∧
    (sessionAfter we rand input .Subanagram true ro ops).quizType = .Subanagram ∧
    (∀ t : MatchType, (sessionAfter we rand input t false ro ops).quizType = t) ∧
    (∀ t : MatchType,
      (QuizEngine.newQuiz we rand input t false ro).quizQuestions = [input]) := by
  refine ⟨?_, ?_, ?_, ?_, ?_⟩
  · show (QuizEngine.runOps we (QuizEngine.newQuiz we rand input .Pattern true ro)
      ops).quizType = .Anagram
    rw [QuizEngine.quizType_runOps]
    rfl
  · show (QuizEngine.runOps we (QuizEngine.newQuiz we rand input .Anagram true ro)
      ops).quizType = .Anagram
    rw [QuizEngine.quizType_runOps]
    rfl
  · show (QuizEngine.runOps we (QuizEngine.newQuiz we rand input .Subanagram true ro)
      ops).quizType = .Subanagram
    rw [QuizEngine.quizType_runOps]
    rfl
  · intro t
    show (QuizEngine.runOps we (QuizEngine.newQuiz we rand input t false ro)
      ops).quizType = t
    rw [QuizEngine.quizType_runOps]
    rfl
  · intro t
    show (if ro = true then QuizEngine.shuffle rand [input] else [input]) = [input]
    cases ro
    · rfl
    · rw [if_pos rfl]
      exact QuizEngine.shuffle_singleton rand input

/-- C3 counterexample: `pOverwritten` is reached from a fresh QuizProgress
by the two public calls `addIncorrect("a", 2)` and `addIncorrect("a", 3)`,
yet deserializing its serialized form yields an incorrect counter of 3
where `pOverwritten` holds 5: the round-trip law fails on it as stated. -/
theorem quizProgress_roundtrip_counterexample :
    pOverwritten.incorrect = 5 ∧
    ((QuizProgress.fromDomElement QuizProgress.fresh
        (QuizProgress.asDomElement pOverwritten)).1).incorrect = 3 ∧
    ((QuizProgress.fromDomElement QuizProgress.fresh
        (QuizProgress.asDomElement pOverwritten)).1).incorrect ≠
      pOverwritten.incorrect := by
  decide

/-- C3 (amended): for every QuizProgress whose maps are strictly key-sorted
(as all states built by the public operations are) and whose `incorrect`
and `missed` counters equal the sums of the corresponding map values — the
intended invariant — deserializing the serialized form fully replaces any
target object with an equal copy and reports success. -/
theorem quizProgress_roundtrip_amended (q p : QuizProgress)
    (hsi : sortedMap p.incorrectWords) (hsm : sortedMap p.missedWords)
    (hi : p.incorrect = sumCounts p.incorrectWords)
    (hm : p.missed = sumCounts p.missedWords) :
    QuizProgress.fromDomElement q (QuizProgress.asDomElement p) = (p, true) :=
  QuizProgress.fromDomElement_asDomElement q p hsi hsm hi hm

/-- Witness for the amended C3 at a concrete snapshot with both maps
non-empty. -/
theorem quizProgress_roundtrip_amended_witness :
    QuizProgress.fromDomElement QuizProgress.fresh
      (QuizProgress.asDomElement pRound) = (pRound, true) :=
  quizProgress_roundtrip_amended QuizProgress.fresh pRound
    (by rw [sortedMap]; decide) (by rw [sortedMap]; decide) (by decide) (by decide)

/-- C4: `fromDomElement` is all-or-nothing: when it reports failure the
target object is exactly as before the call, and when it reports success
the resulting state is a full replacement that does not depend on the
previous contents of the target object. -/
theorem fromDomElement_allOrNothing (p : QuizProgress) (e : DomElem) :
    ((QuizProgress.fromDomElement p e).2 = false →
      (QuizProgress.fromDomElement p e).1 = p) ∧
    ((QuizProgress.fromDomElement p e).2 = true →
      ∀ q : QuizProgress,
        QuizProgress.fromDomElement q e = QuizProgress.fromDomElement p e) := by
  cases h : QuizProgress.parseProgress e with
  | none =>
    have hfd : QuizProgress.fromDomElement p e = (p, false) := by
      unfold QuizProgress.fromDomElement
      rw [h]
    refine ⟨fun _ => by rw [hfd], fun hc => ?_⟩
    rw [hfd] at hc
    exact absurd hc (by simp)
  | some t =>
    have hfd : QuizProgress.fromDomElement p e = (t, true) := by
      unfold QuizProgress.fromDomElement
      rw [h]
    refine ⟨fun hc => ?_, fun _ q => ?_⟩
    · rw [hfd] at hc
      exact absurd hc (by simp)
    · rw [hfd]
      unfold QuizProgress.fromDomElement
      rw [h]

/-- Witness for C4: a wrong-tag document leaves a non-trivial target
untouched, and a valid document produces the same result from two different
prior states. -/
theorem fromDomElement_allOrNothing_witness :
    (QuizProgress.fromDomElement exProgress exBadDoc).1 = exProgress ∧
    QuizProgress.fromDomElement QuizProgress.fresh exGoodDoc =
      QuizProgress.fromDomElement exProgress exGoodDoc :=
  ⟨(fromDomElement_allOrNothing exProgress exBadDoc).1 (by decide),
   (fromDomElement_allOrNothing exProgress exGoodDoc).2 (by decide) QuizProgress.fresh⟩

/-- C5 (code defect): on a two-question session at the first question,
`onLastQuestion` is false and `nextQuestion` advances the cursor and
prepares the next question, but the source function ends without a return
statement on this path (modelled as `none`) instead of returning `true` as
its own documentation promises; at the last question it does return `false`
and leaves the session unchanged. -/
theorem nextQuestion_missing_return :
    QuizEngine.onLastQuestion exTwoQuestions = false ∧
    ((QuizEngine.nextQuestion stubWordEngine exTwoQuestions).1).questionIndex = 1 ∧
    (QuizEngine.nextQuestion stubWordEngine exTwoQuestions).2 = none ∧
    QuizEngine.onLastQuestion { exTwoQuestions with questionIndex := 1 } = true ∧
    QuizEngine.nextQuestion stubWordEngine { exTwoQuestions with questionIndex := 1 } =
      ({ exTwoQuestions with questionIndex := 1 }, some false) := by
  decide

/-- C6 counterexample: two counted `addIncorrect` calls on the same word
are reachable public operations and break the claimed invariant: the
counter reads 5 while the map values sum to 3. -/
theorem quizProgress_invariant_counterexample :
    pOverwritten.incorrect = 5 ∧ sumCounts pOverwritten.incorrectWords = 3 ∧
    pOverwritten.incorrect ≠ sumCounts pOverwritten.incorrectWords := by
  decide

/-- C6 (amended): the invariant `incorrect = sum(incorrectWordCounts)` (and
likewise for missed) holds for every QuizProgress reachable from fresh by
the add operations and deserializations, provided every counted add —
direct, or performed on the scratch object while deserializing a document —
targets a word not already present in its map; `GoodReach` states exactly
that discipline, with `dupFree` as the per-document condition. -/
theorem quizProgress_invariant_amended (p : QuizProgress)
    (h : QuizProgress.GoodReach p) :
    p.incorrect = sumCounts p.incorrectWords ∧
    p.missed = sumCounts p.missedWords := by
  obtain ⟨h1, h2, _, _⟩ := QuizProgress.GoodReach_WF h
  exact ⟨h1, h2⟩

/-- Witness for the amended C6 after a plain add and a counted add of a new
word. -/
theorem quizProgress_invariant_amended_witness :
    (QuizProgress.addIncorrectCount
        (QuizProgress.addIncorrect QuizProgress.fresh "zax") "bat" 3).incorrect =
      sumCounts (QuizProgress.addIncorrectCount
        (QuizProgress.addIncorrect QuizProgress.fresh "zax") "bat" 3).incorrectWords ∧
    (QuizProgress.addIncorrectCount
        (QuizProgress.addIncorrect QuizProgress.fresh "zax") "bat" 3).missed =
      sumCounts (QuizProgress.addIncorrectCount
        (QuizProgress.addIncorrect QuizProgress.fresh "zax") "bat" 3).missedWords :=
  quizProgress_invariant_amended _
    (QuizProgress.GoodReach.addIncCount _ "bat" 3
      (QuizProgress.GoodReach.addInc _ "zax" QuizProgress.GoodReach.start) (by decide))

/-- C7: at every reachable point of any session, `getMissed` returns
exactly the answers not yet supplied, in the answer set's own order (a
sublist of the set's iteration order), so `userCorrect` and `getMissed()`
partition `correctAnswers`: union the whole answer set, intersection
empty. -/
theorem getMissed_partition (we : WordEngine) (rand : Nat → Nat) (input : String)
    (t : MatchType) (a ro : Bool) (ops : List QuizEngine.QuizOp) :
    (QuizEngine.getMissed (sessionAfter we rand input t a ro ops)).Sublist
        (sessionAfter we rand input t a ro ops).correctResponses ∧
    (∀ w, w ∈ QuizEngine.getMissed (sessionAfter we rand input t a ro ops) ↔
      (w ∈ (sessionAfter we rand input t a ro ops).correctResponses ∧
       w ∉ (sessionAfter we rand input t a ro ops).correctUserResponses)) ∧
    (∀ w, (w ∈ (sessionAfter we rand input t a ro ops).correctUserResponses ∨
           w ∈ QuizEngine.getMissed (sessionAfter we rand input t a ro ops)) ↔
      w ∈ (sessionAfter we rand input t a ro ops).correctResponses) ∧
    (∀ w, ¬ (w ∈ (sessionAfter we rand input t a ro ops).correctUserResponses ∧
             w ∈ QuizEngine.getMissed (sessionAfter we rand input t a ro ops))) := by
  have hinv : QuizEngine.Inv (sessionAfter we rand input t a ro ops) :=
    QuizEngine.Inv_runOps we ops (QuizEngine.Inv_newQuiz we rand input t a ro)
  refine ⟨List.filter_sublist _, ?_, ?_, ?_⟩
  · intro w
    simp [QuizEngine.getMissed, List.mem_filter]
  · intro w
    constructor
    · rintro (h | h)
      · exact hinv w h
      · simp only [QuizEngine.getMissed, List.mem_filter, decide_eq_true_eq] at h
        exact h.1
    · intro h
      by_cases hu : w ∈ (sessionAfter we rand input t a ro ops).correctUserResponses
      · exact Or.inl hu
      · refine Or.inr ?_
        simp only [QuizEngine.getMissed, List.mem_filter, decide_eq_true_eq]
        exact ⟨h, hu⟩
  · rintro w ⟨h1, h2⟩
    simp only [QuizEngine.getMissed, List.mem_filter, decide_eq_true_eq] at h2
    exact h2.2 h1

/-- C8: within one session, `totalCorrect`, `totalIncorrect` and
`totalPossible` never decrease across any sequence of `respond` and
`nextQuestion` calls, from any starting state. -/
theorem counters_monotone (we : WordEngine) (s : QuizEngine)
    (ops : List QuizEngine.QuizOp) :
    s.quizCorrect ≤ (QuizEngine.runOps we s ops).quizCorrect ∧
    s.quizIncorrect ≤ (QuizEngine.runOps we s ops).quizIncorrect ∧
    s.quizTotal ≤ (QuizEngine.runOps we s ops).quizTotal :=
  QuizEngine.runOps_mono we ops s

/-- C9: when the current answer set is empty every response is classified
`Incorrect` — appended to `userIncorrect` with `totalIncorrect`
incremented — with no special "no active question" outcome and no
failure. -/
theorem respond_empty_answers (s : QuizEngine) (r : String)
    (h : s.correctResponses = []) :
    QuizEngine.respond s r =
      ({ s with incorrectUserResponses := s.incorrectUserResponses ++ [r],
                quizIncorrect := s.quizIncorrect + 1 },
       ResponseStatus.Incorrect) := by
  unfold QuizEngine.respond
  rw [if_pos (by rw [h]; exact List.not_mem_nil r)]

/-- Witness for C9 on a zero-question session. -/
theorem respond_empty_answers_witness :
    QuizEngine.respond exEmptyAnswers "dog" =
      ({ exEmptyAnswers with incorrectUserResponses := ["dog"], quizIncorrect := 1 },
       ResponseStatus.Incorrect) :=
  respond_empty_answers exEmptyAnswers "dog" rfl

/-- C10: `respond` leaves the question list, the cursor, the current answer
set, the total-possible counter and the quiz type unchanged: it only ever
modifies `userCorrect`, `userIncorrect`, `totalCorrect` and
`totalIncorrect`. -/
theorem respond_frame_effect (s : QuizEngine) (r : String) :
    ((QuizEngine.respond s r).1).quizQuestions = s.quizQuestions ∧
    ((QuizEngine.respond s r).1).questionIndex = s.questionIndex ∧
    ((QuizEngine.respond s r).1).correctResponses = s.correctResponses ∧
    ((QuizEngine.respond s r).1).quizTotal = s.quizTotal ∧
    ((QuizEngine.respond s r).1).quizType = s.quizType :=
  ⟨(QuizEngine.respond_frame s r).1, (QuizEngine.respond_frame s r).2.2.1,
   (QuizEngine.respond_frame s r).2.2.2.1, (QuizEngine.respond_frame s r).2.2.2.2,
   (QuizEngine.respond_frame s r).2.1⟩
